import Mathlib

/-!
Shallow embedding of the `dot-dsl` graph library (`src/src/lib.rs`).

A Rust `HashMap<String, String>` is modelled as an association list with
unique keys; the list order stands in for the map's (arbitrary) iteration
order.  `Vec::into_iter().collect::<HashMap<_, _>>()` is modelled by a left
fold of overwriting inserts (`hmCollect`), matching Rust's semantics where a
later pair for the same key overwrites an earlier one.  All recursive helpers
(`concat_slices`, `from_kv_list`, `find_node_by_name`) are transcribed from
the source's `split_first` recursions.
-/

namespace DotDsl

/-- Model of `HashMap<String, String>`: an association list whose key list is
kept duplicate-free by construction (every map the library builds comes from
`hmCollect` or is empty). -/
abbrev HashMap := List (String × String)

/-- Model of `HashMap::get`: the value stored for `k`, if any. -/
def hmGet (m : HashMap) (k : String) : Option String :=
  List.lookup k m

/-- Model of `HashMap::insert`: the pair `(k, v)` overwrites any existing
entry for `k`. -/
def hmInsert (m : HashMap) (k v : String) : HashMap :=
  (k, v) :: m.filter (fun p => !(p.1 == k))

/-- Model of `Vec<(String, String)>::into_iter().collect::<HashMap<_, _>>()`:
insert the pairs left to right, later pairs overwriting earlier ones. -/
def hmCollect (l : List (String × String)) : HashMap :=
  l.foldl (fun acc p => hmInsert acc p.1 p.2) []

/-- The keys of `m` are pairwise distinct — the `HashMap` representation
invariant. -/
abbrev keysNodup (m : HashMap) : Prop :=
  (m.map Prod.fst).Nodup

/-- `concat_slices` from the source: purely functional concatenation by
recursion on the first slice. -/
def concat_slices {α : Type u} : List α → List α → List α
  | [], b => b
  | h :: t, b => [h] ++ concat_slices t b

/-- `insert_single_kv` from the source: append `(k, v)` to the map's entry
vector and re-collect, so `(k, v)` overwrites. -/
def insert_single_kv (map : HashMap) (k v : String) : HashMap :=
  hmCollect (concat_slices map [(k, v)])

/-- `merge_two_maps` from the source: concatenate the first map's entry vector
with the second map's and collect; on key collisions the second map wins. -/
def merge_two_maps (first : List (String × String)) (second_map : HashMap) : HashMap :=
  hmCollect (concat_slices first second_map)

/-- `from_kv_list` from the source: build a map from a slice of pairs by
recursion, building the tail map first and then inserting the head pair
(overwriting the tail map's entry for that key). -/
def from_kv_list : List (String × String) → HashMap
  | [] => []
  | (k, v) :: tail => merge_two_maps [] (insert_single_kv (from_kv_list tail) k v)

/-- `merge_map_and_list` from the source: merge an existing map with a slice
of pairs; the map built from the slice overrides the existing map. -/
def merge_map_and_list (map : HashMap) (kvs : List (String × String)) : HashMap :=
  merge_two_maps map (from_kv_list kvs)

/-- `Node` from the source: a name plus an attribute map. -/
structure Node where
  name : String
  attrs : HashMap
deriving DecidableEq

/-- `Node::new`: the given name and an empty attribute map. -/
def Node.new (name : String) : Node :=
  { name := name, attrs := [] }

/-- `Node::with_attrs`: same name, attrs merged with the given pair list. -/
def Node.with_attrs (n : Node) (attrs : List (String × String)) : Node :=
  { name := n.name, attrs := merge_map_and_list n.attrs attrs }

/-- `Node::attr`: lookup in the attribute map. -/
def Node.attr (n : Node) (key : String) : Option String :=
  hmGet n.attrs key

/-- `Edge` from the source: two endpoint names plus an attribute map. -/
structure Edge where
  node1 : String
  node2 : String
  attrs : HashMap
deriving DecidableEq

/-- `Edge::new`: the two endpoint names and an empty attribute map. -/
def Edge.new (node1 node2 : String) : Edge :=
  { node1 := node1, node2 := node2, attrs := [] }

/-- `Edge::with_attrs`: same endpoints, attrs merged with the given list. -/
def Edge.with_attrs (e : Edge) (attrs : List (String × String)) : Edge :=
  { node1 := e.node1, node2 := e.node2, attrs := merge_map_and_list e.attrs attrs }

/-- `Edge::attr`: lookup in the attribute map. -/
def Edge.attr (e : Edge) (key : String) : Option String :=
  hmGet e.attrs key

/-- `Graph` from the source: node sequence, edge sequence, attribute map. -/
structure Graph where
  nodes : List Node
  edges : List Edge
  attrs : HashMap
deriving DecidableEq

/-- `Graph::new`: empty nodes, edges and attrs. -/
def Graph.new : Graph :=
  { nodes := [], edges := [], attrs := [] }

/-- `Graph::with_nodes`: concatenate the new nodes after the existing ones. -/
def Graph.with_nodes (g : Graph) (nodes : List Node) : Graph :=
  { nodes := concat_slices g.nodes nodes, edges := g.edges, attrs := g.attrs }

/-- `Graph::with_edges`: concatenate the new edges after the existing ones. -/
def Graph.with_edges (g : Graph) (edges : List Edge) : Graph :=
  { nodes := g.nodes, edges := concat_slices g.edges edges, attrs := g.attrs }

/-- `Graph::with_attrs`: merge the attribute map with the given pair list. -/
def Graph.with_attrs (g : Graph) (attrs : List (String × String)) : Graph :=
  { nodes := g.nodes, edges := g.edges, attrs := merge_map_and_list g.attrs attrs }

/-- `find_node_by_name` from the source: linear scan, first match wins. -/
def find_node_by_name : List Node → String → Option Node
  | [], _ => none
  | h :: t, name => if h.name = name then some h else find_node_by_name t name

/-- `Graph::node`: look the name up in the node sequence. -/
def Graph.node (g : Graph) (name : String) : Option Node :=
  find_node_by_name g.nodes name

/-- Fuel-indexed variant of `from_kv_list`: `none` when the fuel runs out,
one unit of fuel per recursive call. -/
def from_kv_listFuel : Nat → List (String × String) → Option HashMap
  | 0, _ => none
  | _ + 1, [] => some []
  | fuel + 1, (k, v) :: tail =>
      (from_kv_listFuel fuel tail).map (fun tm => merge_two_maps [] (insert_single_kv tm k v))

/-- Fuel-indexed variant of `concat_slices`. -/
def concat_slicesFuel {α : Type u} : Nat → List α → List α → Option (List α)
  | 0, _, _ => none
  | _ + 1, [], b => some b
  | fuel + 1, h :: t, b => (concat_slicesFuel fuel t b).map (fun r => [h] ++ r)

/-- Fuel-indexed variant of `find_node_by_name`. -/
def find_node_by_nameFuel : Nat → List Node → String → Option (Option Node)
  | 0, _, _ => none
  | _ + 1, [], _ => some none
  | fuel + 1, h :: t, name =>
      if h.name = name then some (some h) else find_node_by_nameFuel fuel t name

/-- Left-biased choice on optional strings (used to state lookup lemmas). -/
def optOr (a b : Option String) : Option String :=
  match a with
  | some v => some v
  | none => b

theorem optOr_none_right (a : Option String) : optOr a none = a := by
  cases a <;> rfl

theorem optOr_assoc (a b c : Option String) : optOr (optOr a b) c = optOr a (optOr b c) := by
  cases a <;> rfl

theorem lookup_cons_self (k b : String) (t : List (String × String)) :
    List.lookup k ((k, b) :: t) = some b := by
  simp [List.lookup]

theorem lookup_cons_ne (k a b : String) (t : List (String × String)) (h : ¬ k = a) :
    List.lookup k ((a, b) :: t) = List.lookup k t := by
  have hb : (k == a) = false := by simp [h]
  simp [List.lookup, hb]

theorem lookup_append (k : String) (l₁ l₂ : List (String × String)) :
    List.lookup k (l₁ ++ l₂) = optOr (List.lookup k l₁) (List.lookup k l₂) := by
  induction l₁ with
  | nil => rfl
  | cons p t ih =>
    obtain ⟨a, b⟩ := p
    by_cases h : k = a
    · subst h
      rw [List.cons_append, lookup_cons_self, lookup_cons_self]
      rfl
    · rw [List.cons_append, lookup_cons_ne _ _ _ _ h, lookup_cons_ne _ _ _ _ h, ih]

theorem lookup_filter_ne (k a : String) (m : List (String × String)) (h : ¬ k = a) :
    List.lookup k (m.filter fun p => !(p.1 == a)) = List.lookup k m := by
  induction m with
  | nil => rfl
  | cons p t ih =>
    obtain ⟨x, y⟩ := p
    by_cases hp : x = a
    · have hcons : List.filter (fun p => !(p.1 == a)) ((x, y) :: t)
          = List.filter (fun p => !(p.1 == a)) t := by
        simp [hp]
      rw [hcons, ih, lookup_cons_ne _ _ _ _ (fun hk => h (hk.trans hp))]
    · have hcons : List.filter (fun p => !(p.1 == a)) ((x, y) :: t)
          = (x, y) :: List.filter (fun p => !(p.1 == a)) t := by
        simp [hp]
      rw [hcons]
      by_cases hk : k = x
      · subst hk
        rw [lookup_cons_self, lookup_cons_self]
      · rw [lookup_cons_ne _ _ _ _ hk, lookup_cons_ne _ _ _ _ hk, ih]

theorem hmGet_hmInsert (m : HashMap) (a b k : String) :
    hmGet (hmInsert m a b) k = if k = a then some b else hmGet m k := by
  unfold hmGet hmInsert
  by_cases h : k = a
  · subst h
    simp [lookup_cons_self]
  · rw [lookup_cons_ne _ _ _ _ h, lookup_filter_ne _ _ _ h]
    simp [h]

theorem hmGet_foldl_insert (l : List (String × String)) (init : HashMap) (k : String) :
    hmGet (List.foldl (fun acc p => hmInsert acc p.1 p.2) init l) k =
      optOr (List.lookup k l.reverse) (hmGet init k) := by
  induction l generalizing init with
  | nil => simp [optOr]
  | cons p t ih =>
    obtain ⟨a, b⟩ := p
    rw [List.foldl_cons, ih, List.reverse_cons, lookup_append, optOr_assoc]
    congr 1
    rw [hmGet_hmInsert]
    by_cases h : k = a
    · subst h
      rw [lookup_cons_self]
      simp [optOr]
    · rw [lookup_cons_ne _ _ _ _ h]
      simp [optOr, h, List.lookup]

theorem hmGet_hmCollect (l : List (String × String)) (k : String) :
    hmGet (hmCollect l) k = List.lookup k l.reverse := by
  rw [hmCollect, hmGet_foldl_insert]
  simp [hmGet, optOr_none_right]

theorem keysNodup_hmInsert (m : HashMap) (a b : String) (hm : keysNodup m) :
    keysNodup (hmInsert m a b) := by
  unfold hmInsert keysNodup
  rw [List.map_cons, List.nodup_cons]
  constructor
  · intro hmem
    obtain ⟨p, hp, hfst⟩ := List.mem_map.mp hmem
    have := List.of_mem_filter hp
    simp [hfst] at this
  · exact hm.sublist ((List.filter_sublist m).map Prod.fst)

theorem keysNodup_foldl_insert (l : List (String × String)) (init : HashMap)
    (hinit : keysNodup init) :
    keysNodup (List.foldl (fun acc p => hmInsert acc p.1 p.2) init l) := by
  induction l generalizing init with
  | nil => exact hinit
  | cons p t ih => exact ih _ (keysNodup_hmInsert _ _ _ hinit)

theorem keysNodup_hmCollect (l : List (String × String)) : keysNodup (hmCollect l) :=
  keysNodup_foldl_insert l [] List.nodup_nil

theorem lookup_eq_none_of_not_mem_keys (k : String) (m : List (String × String))
    (h : k ∉ m.map Prod.fst) : List.lookup k m = none := by
  induction m with
  | nil => rfl
  | cons p t ih =>
    obtain ⟨a, b⟩ := p
    have h1 : ¬ k = a := fun hk => h (by simp [hk])
    have h2 : k ∉ t.map Prod.fst := fun hk => h (by simp [hk])
    rw [lookup_cons_ne _ _ _ _ h1]
    exact ih h2

theorem lookup_reverse_of_nodup (k : String) (m : List (String × String))
    (hm : keysNodup m) : List.lookup k m.reverse = List.lookup k m := by
  induction m with
  | nil => rfl
  | cons p t ih =>
    obtain ⟨a, b⟩ := p
    simp only [keysNodup, List.map_cons, List.nodup_cons] at hm
    obtain ⟨hp, ht⟩ := hm
    rw [List.reverse_cons, lookup_append, ih ht]
    by_cases h : k = a
    · subst h
      rw [lookup_eq_none_of_not_mem_keys _ _ (by simpa using hp),
        lookup_cons_self, lookup_cons_self]
      rfl
    · rw [lookup_cons_ne _ _ _ _ h, lookup_cons_ne _ _ _ _ h]
      simp only [List.lookup, optOr]
      cases List.lookup k t <;> rfl

theorem concat_slices_eq_append {α : Type u} (a b : List α) :
    concat_slices a b = a ++ b := by
  induction a with
  | nil => rfl
  | cons h t ih => simp [concat_slices, ih]

theorem keysNodup_insert_single_kv (m : HashMap) (a b : String) :
    keysNodup (insert_single_kv m a b) :=
  keysNodup_hmCollect _

theorem keysNodup_merge_two_maps (f : List (String × String)) (s : HashMap) :
    keysNodup (merge_two_maps f s) :=
  keysNodup_hmCollect _

theorem hmGet_insert_single_kv (m : HashMap) (a b k : String) (hm : keysNodup m) :
    hmGet (insert_single_kv m a b) k = if k = a then some b else hmGet m k := by
  unfold insert_single_kv
  rw [hmGet_hmCollect, concat_slices_eq_append, List.reverse_append]
  simp only [List.reverse_cons, List.reverse_nil, List.nil_append, List.singleton_append]
  by_cases h : k = a
  · subst h
    rw [lookup_cons_self, if_pos rfl]
  · rw [lookup_cons_ne _ _ _ _ h, lookup_reverse_of_nodup _ _ hm, if_neg h]
    rfl

theorem hmGet_merge_two_maps (f : List (String × String)) (s : HashMap) (k : String)
    (hs : keysNodup s) :
    hmGet (merge_two_maps f s) k = optOr (hmGet s k) (List.lookup k f.reverse) := by
  unfold merge_two_maps
  rw [hmGet_hmCollect, concat_slices_eq_append, List.reverse_append, lookup_append,
    lookup_reverse_of_nodup _ _ hs]
  rfl

theorem keysNodup_from_kv_list (l : List (String × String)) :
    keysNodup (from_kv_list l) := by
  cases l with
  | nil => exact List.nodup_nil
  | cons p t =>
    obtain ⟨a, b⟩ := p
    rw [from_kv_list]
    exact keysNodup_merge_two_maps _ _

theorem hmGet_from_kv_list (l : List (String × String)) (k : String) :
    hmGet (from_kv_list l) k = List.lookup k l := by
  induction l with
  | nil => rfl
  | cons p t ih =>
    obtain ⟨a, b⟩ := p
    rw [from_kv_list,
      hmGet_merge_two_maps _ _ _ (keysNodup_insert_single_kv _ _ _),
      hmGet_insert_single_kv _ _ _ _ (keysNodup_from_kv_list t)]
    by_cases h : k = a
    · subst h
      rw [if_pos rfl, lookup_cons_self]
      rfl
    · rw [if_neg h, lookup_cons_ne _ _ _ _ h, ih]
      show optOr (List.lookup k t) none = List.lookup k t
      exact optOr_none_right _

theorem hmGet_merge_map_and_list (m : HashMap) (l : List (String × String)) (k : String) :
    hmGet (merge_map_and_list m l) k = optOr (List.lookup k l) (List.lookup k m.reverse) := by
  unfold merge_map_and_list
  rw [hmGet_merge_two_maps _ _ _ (keysNodup_from_kv_list l), hmGet_from_kv_list]

theorem lookup_eq_some_of_mem (k v : String) (m : List (String × String))
    (hm : keysNodup m) (h : (k, v) ∈ m) : List.lookup k m = some v := by
  induction m with
  | nil => cases h
  | cons p t ih =>
    obtain ⟨a, b⟩ := p
    simp only [keysNodup, List.map_cons, List.nodup_cons] at hm
    obtain ⟨hp, ht⟩ := hm
    rcases List.mem_cons.mp h with heq | hmem
    · cases heq
      rw [lookup_cons_self]
    · by_cases hk : k = a
      · subst hk
        exact absurd (by simpa using List.mem_map_of_mem Prod.fst hmem) hp
      · rw [lookup_cons_ne _ _ _ _ hk]
        exact ih ht hmem

theorem find_node_by_name_eq_find (l : List Node) (s : String) :
    find_node_by_name l s = List.find? (fun nd => nd.name == s) l := by
  induction l with
  | nil => rfl
  | cons h t ih =>
    by_cases hn : h.name = s
    · simp [find_node_by_name, List.find?_cons, hn]
    · simp [find_node_by_name, List.find?_cons, hn, ih]

theorem find_node_by_name_eq_none (l : List Node) (s : String)
    (h : ∀ nd ∈ l, ¬ nd.name = s) : find_node_by_name l s = none := by
  induction l with
  | nil => rfl
  | cons hd t ih =>
    rw [find_node_by_name, if_neg (h hd (List.mem_cons_self hd t))]
    exact ih (fun nd hnd => h nd (List.mem_cons_of_mem _ hnd))

theorem from_kv_listFuel_length (kvs : List (String × String)) :
    from_kv_listFuel (kvs.length + 1) kvs = some (from_kv_list kvs) := by
  induction kvs with
  | nil => rfl
  | cons p t ih =>
    obtain ⟨a, b⟩ := p
    rw [List.length_cons, from_kv_listFuel, ih, from_kv_list]
    rfl

theorem concat_slicesFuel_length {α : Type u} (a b : List α) :
    concat_slicesFuel (a.length + 1) a b = some (concat_slices a b) := by
  induction a with
  | nil => rfl
  | cons h t ih =>
    rw [List.length_cons, concat_slicesFuel, ih, concat_slices]
    rfl

theorem find_node_by_nameFuel_length (ns : List Node) (s : String) :
    find_node_by_nameFuel (ns.length + 1) ns s = some (find_node_by_name ns s) := by
  induction ns with
  | nil => rfl
  | cons h t ih =>
    rw [List.length_cons, find_node_by_nameFuel, find_node_by_name]
    by_cases hn : h.name = s
    · rw [if_pos hn, if_pos hn]
    · rw [if_neg hn, if_neg hn]
      calc find_node_by_nameFuel (t.length + 1) t s
          = some (find_node_by_name t s) := ih

/-- C1 counterexample: on the map-free input with the list
`[("a", "1"), ("a", "2")]`, `merge_map_and_list` stores `"1"` — the value of
the first occurrence of `"a"` — whereas the claim predicts the last
occurrence's value `"2"`. -/
theorem merge_last_write_counterexample :
    hmGet (merge_map_and_list [] [("a", "1"), ("a", "2")]) "a" = some "1" ∧
    hmGet (merge_map_and_list [] [("a", "1"), ("a", "2")]) "a" ≠ some "2" := by
  decide

/-- C1 (amended): for every map `m`, list `l` and key `k` occurring in `l`,
the merged map stores at `k` the value of the FIRST occurrence of `k` in `l`
(`List.lookup` returns the first match); in particular entries of `l`
override any prior value of `k` in `m`. -/
theorem merge_map_and_list_first_occurrence_wins (m : HashMap)
    (l : List (String × String)) (k v : String)
    (h : List.lookup k l = some v) :
    hmGet (merge_map_and_list m l) k = some v := by
  rw [hmGet_merge_map_and_list, h]
  rfl

/-- Witness for C1 (amended): with prior value `("a", "0")` in the map and
two occurrences of `"a"` in the list, the merge stores the first list
value `"1"`. -/
theorem merge_map_and_list_first_occurrence_wins_witness :
    List.lookup "a" [("a", "1"), ("a", "2")] = some "1" ∧
    hmGet (merge_map_and_list [("a", "0")] [("a", "1"), ("a", "2")]) "a" = some "1" :=
  ⟨by decide,
   merge_map_and_list_first_occurrence_wins [("a", "0")] [("a", "1"), ("a", "2")] "a" "1"
     (by decide)⟩

/-- C2: keys absent from the added list keep their value from the original
map, and merging with the empty list returns a map equal (as a mapping) to
the original. -/
theorem merge_map_and_list_frame (m : HashMap) (hm : keysNodup m) :
    (∀ (l : List (String × String)) (k : String), List.lookup k l = none →
      hmGet (merge_map_and_list m l) k = hmGet m k) ∧
    (∀ k : String, hmGet (merge_map_and_list m []) k = hmGet m k) := by
  refine ⟨fun l k h => ?_, fun k => ?_⟩
  · rw [hmGet_merge_map_and_list, h, lookup_reverse_of_nodup _ _ hm]
    rfl
  · rw [hmGet_merge_map_and_list, lookup_reverse_of_nodup _ _ hm]
    rfl

/-- Witness for C2: the key `"x"` is untouched by merging in `[("a", "1")]`. -/
theorem merge_map_and_list_frame_witness :
    keysNodup [("x", "9")] ∧
    hmGet (merge_map_and_list [("x", "9")] [("a", "1")]) "x" = hmGet [("x", "9")] "x" :=
  ⟨by decide,
   (merge_map_and_list_frame [("x", "9")] (by decide)).1 [("a", "1")] "x" (by decide)⟩

/-- C3: `Graph.with_nodes` appends the given nodes after the existing node
sequence (no reordering, no deduplication) and `Graph.with_edges` is the
analogous concatenation for edges. -/
theorem with_nodes_with_edges_are_append (g : Graph) (ns : List Node) (es : List Edge) :
    (g.with_nodes ns).nodes = g.nodes ++ ns ∧ (g.with_edges es).edges = g.edges ++ es :=
  ⟨concat_slices_eq_append _ _, concat_slices_eq_append _ _⟩

/-- C4: `Graph.node` returns the first stored node whose name matches
(`List.find?` semantics), and `none` when no stored node has the name. -/
theorem graph_node_first_match (g : Graph) (s : String) :
    g.node s = List.find? (fun nd => nd.name == s) g.nodes ∧
    ((∀ nd ∈ g.nodes, ¬ nd.name = s) → g.node s = none) :=
  ⟨find_node_by_name_eq_find _ _, fun h => find_node_by_name_eq_none _ _ h⟩

/-- Witness for C4: with two nodes named `"a"` the earliest stored one is
returned, and a name matching no node yields `none`. -/
theorem graph_node_first_match_witness :
    (Graph.new.with_nodes [Node.new "a", (Node.new "a").with_attrs [("x", "1")]]).node "a"
      = some (Node.new "a") ∧
    (Graph.new.with_nodes [Node.new "b"]).node "z" = none :=
  ⟨((graph_node_first_match
      (Graph.new.with_nodes [Node.new "a", (Node.new "a").with_attrs [("x", "1")]]) "a").1).trans
      (by decide),
   (graph_node_first_match (Graph.new.with_nodes [Node.new "b"]) "z").2 (by decide)⟩

/-- C5: each `with` operation on `Graph` changes only its own field:
`with_nodes` leaves edges and attrs unchanged, `with_edges` leaves nodes and
attrs unchanged, `with_attrs` leaves nodes and edges unchanged. -/
theorem with_operations_frame (g : Graph) (ns : List Node) (es : List Edge)
    (ps : List (String × String)) :
    (g.with_nodes ns).edges = g.edges ∧ (g.with_nodes ns).attrs = g.attrs ∧
    (g.with_edges es).nodes = g.nodes ∧ (g.with_edges es).attrs = g.attrs ∧
    (g.with_attrs ps).nodes = g.nodes ∧ (g.with_attrs ps).edges = g.edges :=
  ⟨rfl, rfl, rfl, rfl, rfl, rfl⟩

/-- C6: appending two nodes in one `with_nodes` call yields the same graph as
two chained single-node calls; likewise for `with_edges`. -/
theorem with_nodes_batched_eq_chained (g : Graph) (a b : Node) (e1 e2 : Edge) :
    g.with_nodes [a, b] = (g.with_nodes [a]).with_nodes [b] ∧
    g.with_edges [e1, e2] = (g.with_edges [e1]).with_edges [e2] := by
  constructor <;>
    simp [Graph.with_nodes, Graph.with_edges, concat_slices_eq_append]

/-- C7: `Node.new` keeps the given name (any string accepted) and starts with
an empty attribute map; `Edge.new` keeps both endpoint names in order with an
empty attribute map; `with_attrs` preserves the name, resp. both endpoints. -/
theorem constructors_preserve_identity (s n1 n2 : String) (n : Node) (e : Edge)
    (ps : List (String × String)) :
    (Node.new s).name = s ∧ (Node.new s).attrs = [] ∧
    (Edge.new n1 n2).node1 = n1 ∧ (Edge.new n1 n2).node2 = n2 ∧
    (Edge.new n1 n2).attrs = [] ∧
    (n.with_attrs ps).name = n.name ∧
    (e.with_attrs ps).node1 = e.node1 ∧ (e.with_attrs ps).node2 = e.node2 :=
  ⟨rfl, rfl, rfl, rfl, rfl, rfl, rfl, rfl⟩

/-- C8: attribute lookup on nodes and edges returns the stored value when the
key is present and `none` otherwise, and `Graph.node` returns `none` when no
node matches — absent results are ordinary values, never failures. -/
theorem attr_lookups_never_fail (n : Node) (e : Edge) (g : Graph) (k v s : String) :
    (keysNodup n.attrs → (k, v) ∈ n.attrs → n.attr k = some v) ∧
    (k ∉ n.attrs.map Prod.fst → n.attr k = none) ∧
    (keysNodup e.attrs → (k, v) ∈ e.attrs → e.attr k = some v) ∧
    (k ∉ e.attrs.map Prod.fst → e.attr k = none) ∧
    ((∀ nd ∈ g.nodes, ¬ nd.name = s) → g.node s = none) :=
  ⟨fun hm h => lookup_eq_some_of_mem _ _ _ hm h,
   fun h => lookup_eq_none_of_not_mem_keys _ _ h,
   fun hm h => lookup_eq_some_of_mem _ _ _ hm h,
   fun h => lookup_eq_none_of_not_mem_keys _ _ h,
   fun h => find_node_by_name_eq_none _ _ h⟩

/-- Witness for C8: a stored attribute is returned, a missing key yields
`none` on nodes and edges, and an unmatched node name yields `none`. -/
theorem attr_lookups_never_fail_witness :
    ((Node.new "a").with_attrs [("foo", "1")]).attr "foo" = some "1" ∧
    (Node.new "a").attr "bar" = none ∧
    ((Edge.new "a" "b").with_attrs [("w", "5")]).attr "w" = some "5" ∧
    (Edge.new "a" "b").attr "q" = none ∧
    Graph.new.node "z" = none :=
  ⟨(attr_lookups_never_fail ((Node.new "a").with_attrs [("foo", "1")]) (Edge.new "a" "b")
      Graph.new "foo" "1" "z").1 (by decide) (by decide),
   (attr_lookups_never_fail (Node.new "a") (Edge.new "a" "b")
      Graph.new "bar" "x" "z").2.1 (by decide),
   (attr_lookups_never_fail (Node.new "a") ((Edge.new "a" "b").with_attrs [("w", "5")])
      Graph.new "w" "5" "z").2.2.1 (by decide) (by decide),
   (attr_lookups_never_fail (Node.new "a") (Edge.new "a" "b")
      Graph.new "q" "x" "z").2.2.2.1 (by decide),
   (attr_lookups_never_fail (Node.new "a") (Edge.new "a" "b")
      Graph.new "q" "x" "z").2.2.2.2 (by decide)⟩

/-- C9: the three recursive helpers terminate on every input: a fuel equal to
the recursed-on slice's length plus one always suffices, since each recursive
call is on the strictly shorter tail. -/
theorem recursive_helpers_total :
    (∀ kvs : List (String × String),
      from_kv_listFuel (kvs.length + 1) kvs = some (from_kv_list kvs)) ∧
    (∀ (α : Type) (a b : List α),
      concat_slicesFuel (a.length + 1) a b = some (concat_slices a b)) ∧
    (∀ (ns : List Node) (s : String),
      find_node_by_nameFuel (ns.length + 1) ns s = some (find_node_by_name ns s)) :=
  ⟨from_kv_listFuel_length, fun _ a b => concat_slicesFuel_length a b,
   find_node_by_nameFuel_length⟩

/-- C10: `concat_slices` is exactly list append: same elements in the same
order, with length the sum of the two lengths. -/
theorem concat_slices_refines_append (α : Type) (a b : List α) :
    concat_slices a b = a ++ b ∧ (concat_slices a b).length = a.length + b.length := by
  refine ⟨concat_slices_eq_append a b, ?_⟩
  rw [concat_slices_eq_append, List.length_append]

end DotDsl
